import Mathlib

/-!
Verification of the `lss` directory-size engine (`src/main.rs`).

The development shallowly embeds the core of the program:
* `SizeUnit`, `CacheEntry` and the in-memory cache (`src/main.rs` lines 52-94),
* the recursive traversal `FileInfo::calculate_directory_size`
  (`src/main.rs` lines 204-386),
* the binary cache codec `save_cache` / `load_cache`
  (`src/main.rs` lines 681-829).

Machine integers (`u64`, `u16`) are modelled as `Nat`, with an explicit
`% 2 ^ 64` where the Rust code can overflow, and `u64::saturating_add` as
clamping at `2 ^ 64 - 1`.  Filesystem reads are modelled by a tree datatype
whose constructors record exactly the answers the syscalls give the
traversal at each step (a read error, a metadata error, a non-directory
with its length and symlink flag, or a directory with its identity and
listing).  Fallible operations return `Except Unit`, mirroring
`io::Result`.
-/

/-- Values of `u64` live below `2 ^ 64`. -/
def U64MOD : Nat := 2 ^ 64

/-- Largest representable `u64` value, the clamp of `saturating_add`. -/
def U64MAX : Nat := 2 ^ 64 - 1

/-- The function `u64::saturating_add` (used at `src/main.rs` lines 313 and 342):
addition clamped at the maximum representable value. -/
def satAdd (a b : Nat) : Nat := min (a + b) U64MAX

/-- The nine on-disk size units, `src/main.rs` lines 52-63. -/
inductive SizeUnit where
  | Bytes
  | Kilobytes
  | Megabytes
  | Gigabytes
  | Terabytes
  | Kibibytes
  | Mebibytes
  | Gibibytes
  | Tebibytes
deriving DecidableEq, Repr

/-- Encoding `SizeUnit::to_u16` (line 66): the discriminant values fixed at lines
54-62; the high byte is the family, the low byte the magnitude order. -/
def SizeUnit.to_u16 : SizeUnit → Nat
  | .Bytes => 0x0001
  | .Kilobytes => 0x0002
  | .Megabytes => 0x0003
  | .Gigabytes => 0x0004
  | .Terabytes => 0x0005
  | .Kibibytes => 0x0101
  | .Mebibytes => 0x0102
  | .Gibibytes => 0x0103
  | .Tebibytes => 0x0104

/-- Decoding `SizeUnit::from_u16` (lines 70-83): partial inverse of the encoding;
any value outside the nine discriminants yields `none`. -/
def SizeUnit.from_u16 (value : Nat) : Option SizeUnit :=
  match value with
  | 0x0001 => some .Bytes
  | 0x0002 => some .Kilobytes
  | 0x0003 => some .Megabytes
  | 0x0004 => some .Gigabytes
  | 0x0005 => some .Terabytes
  | 0x0101 => some .Kibibytes
  | 0x0102 => some .Mebibytes
  | 0x0103 => some .Gibibytes
  | 0x0104 => some .Tebibytes
  | _ => none

/-- The per-unit multiplier of the cache-hit branch, `src/main.rs` lines
231-241 (`1000` powers for the decimal family, `1024` powers for the
binary family). -/
def unitScale : SizeUnit → Nat
  | .Bytes => 1
  | .Kilobytes => 1000
  | .Megabytes => 1000000
  | .Gigabytes => 1000000000
  | .Terabytes => 1000000000000
  | .Kibibytes => 1024
  | .Mebibytes => 1048576
  | .Gibibytes => 1073741824
  | .Tebibytes => 1099511627776

/-- Struct `CacheEntry` (`src/main.rs` lines 86-92). -/
structure CacheEntry where
  size : Nat
  inode : Nat
  device_id : Nat
  size_unit : SizeUnit
deriving DecidableEq, Repr

/-- Function `FileInfo::get_cache_key` (lines 421-426) feeds the decimal strings of
`(inode, device_id)` to SHA-256 and hex-prints the digest.  The embedding
uses the `(inode, device_id)` pair itself as the key: key equality then
matches the source up to SHA-256 collisions of distinct digest inputs,
which is the working assumption of the program's own design
(`CacheKey` is "a fixed-length cryptographic digest" of exactly these two
numbers). -/
def get_cache_key (inode device_id : Nat) : Nat × Nat := (inode, device_id)

/-- The in-memory cache `type Cache = HashMap<String, CacheEntry>`
(line 94), modelled as an association list keyed by `get_cache_key`
values, in insertion order. -/
abbrev Cache := List ((Nat × Nat) × CacheEntry)

/-- Lookup `HashMap::get`: the entry stored for a key, if any. -/
def cacheGet (c : Cache) (k : Nat × Nat) : Option CacheEntry :=
  match c with
  | [] => none
  | (k2, e) :: rest => if k2 = k then some e else cacheGet rest k

/-- Insertion `HashMap::insert` (line 368): overwrite the record for the key in
place if present, otherwise add it. -/
def cacheInsert (c : Cache) (k : Nat × Nat) (e : CacheEntry) : Cache :=
  match c with
  | [] => [(k, e)]
  | (k2, e2) :: rest =>
      if k2 = k then (k, e) :: rest else (k2, e2) :: cacheInsert rest k e

/-- One child produced by iterating `fs::read_dir` inside
`calculate_directory_size` (lines 265-356).  Each constructor records the
answers the filesystem gives for that child:
* `readErr`   — the iterator item itself was `Err` (line 266),
* `metaErr`   — `metadata`/`symlink_metadata` on the child path failed
  (line 290),
* `nonDir`    — a non-directory child with its byte length and whether the
  metadata reports a symlink (lines 338-343),
* `subdir`    — a directory child with its `(inode, device)` identity, a
  flag telling whether `FileInfo::new` fails for it (line 303), whether
  `fs::read_dir` succeeds on it (line 252), and its own listing.

A filesystem cycle (a symlink or alias back to an ancestor) appears as a
`subdir` whose identity equals that of a directory on the active path;
the traversal skips it before ever reading its listing, so the listing
stored under such an entry is immaterial. -/
inductive FsEntry where
  | readErr : FsEntry
  | metaErr : FsEntry
  | nonDir (size : Nat) (isSymlink : Bool) : FsEntry
  | subdir (newFails : Bool) (ino : Nat) (dev : Nat) (readDirOk : Bool)
      (children : List FsEntry) : FsEntry

/-- The mutable state threaded through the traversal: the cache
(`&mut Cache`), the visited set (`&mut HashSet<(u64, u64)>`, kept as the
list of identities on the active path), and the number of
"Detected directory cycle" warnings issued by the logger
(lines 217-222). -/
structure TravState where
  cache : Cache
  visited : List (Nat × Nat)
  cycleWarnings : Nat
deriving DecidableEq, Repr

/-- The fields of `FileInfo` that `calculate_directory_size` reads from
`self`, plus the directory-listing answer for its path.  `dev` is the
value `get_device_id` returns for the path (`0` when the re-stat fails,
line 428-434); it is stable within one run. -/
structure FileInfo where
  inode : Nat
  size : Nat
  is_directory : Bool
  dev : Nat
  readDirOk : Bool
  children : List FsEntry

/-- The head of the directory body of `FileInfo::calculate_directory_size`,
`src/main.rs` lines 216-263, shared between the top-level call and the
recursion on a subdirectory child.  In order:
* the cycle-guard check — on "already active" log a cycle warning and
  return `Ok(0)` without inserting or removing anything (216-223) — and
  the insert (224);
* unless `recalculate`, the cache lookup: a hit needs the stored
  `device_id` to equal the live one, and yields the stored magnitude
  times the unit's scale factor as a `u64` product, i.e. modulo `2 ^ 64`
  (226-246); on a hit the identity is removed and the value returned;
* on a listing failure, `Ok(0)` after removing the identity (252-263).

`.inl` is an early return with its result and state; `.inr` continues
into the child loop with the identity inserted. -/
def dirPre (ino dev : Nat) (readDirOk recalculate : Bool) (st : TravState) :
    Sum (Except Unit Nat × TravState) TravState :=
  if (ino, dev) ∈ st.visited then
    .inl (Except.ok 0, { st with cycleWarnings := st.cycleWarnings + 1 })
  else
    let st1 : TravState := { st with visited := (ino, dev) :: st.visited }
    let hit : Option Nat :=
      if recalculate then none
      else
        match cacheGet st1.cache (get_cache_key ino dev) with
        | some entry =>
            if dev = entry.device_id then
              some ((entry.size * unitScale entry.size_unit) % U64MOD)
            else none
        | none => none
    match hit with
    | some v =>
        .inl (Except.ok v, { st1 with visited := st1.visited.erase (ino, dev) })
    | none =>
        if readDirOk then .inr st1
        else
          .inl (Except.ok 0,
            { st1 with visited := st1.visited.erase (ino, dev) })

/-- The tail of the recompute path, lines 366-385: store the child loop's
total in the cache keyed by this directory with `unit = Bytes`, remove
the identity from the visited set, and return the total. -/
def dirPost (ino dev : Nat) (r : Nat × Nat × TravState) :
    Except Unit Nat × TravState :=
  (Except.ok r.1,
    { r.2.2 with
      cache := cacheInsert r.2.2.cache (get_cache_key ino dev)
        ⟨r.1, ino, dev, SizeUnit.Bytes⟩,
      visited := r.2.2.visited.erase (ino, dev) })

mutual
/-- One iteration of the child loop of `calculate_directory_size`
(lines 265-356), on the running `(total, errorCount, state)` triple:
* an `Err` iterator item or a metadata failure counts an error and moves
  on (266-279, 345-355);
* a non-directory contributes its length through `saturating_add`, unless
  it is a symlink and symlinks are ignored (338-343);
* a directory child is skipped when its identity equals the current
  directory's own identity (293-295) or is already on the active path
  (297-300); a `FileInfo::new` failure counts an error (327-336);
  otherwise the traversal recurses — the recursive call is the directory
  body `dirPre`/`dirPost` around the child loop on the child's listing —
  adding an `Ok` result through `saturating_add` and counting an `Err`
  result as an error (305-325). -/
def calcEntry (selfIno selfDev : Nat) (e : FsEntry)
    (recalculate ignoreSymlinks : Bool) (st : TravState)
    (total errorCount : Nat) : Nat × Nat × TravState :=
  match e with
  | .readErr => (total, errorCount + 1, st)
  | .metaErr => (total, errorCount + 1, st)
  | .nonDir size isSymlink =>
      if ignoreSymlinks && isSymlink then (total, errorCount, st)
      else (satAdd total size, errorCount, st)
  | .subdir newFails ino dev readDirOk kids =>
      if ino = selfIno ∧ dev = selfDev then (total, errorCount, st)
      else if (ino, dev) ∈ st.visited then (total, errorCount, st)
      else if newFails then (total, errorCount + 1, st)
      else
        let r :=
          match dirPre ino dev readDirOk recalculate st with
          | .inl done => done
          | .inr st1 =>
              dirPost ino dev
                (calcEntries ino dev kids recalculate ignoreSymlinks st1 0 0)
        match r.1 with
        | Except.ok subSize => (satAdd total subSize, errorCount, r.2)
        | Except.error _ => (total, errorCount + 1, r.2)

/-- The child loop of `calculate_directory_size`, lines 265-356: fold
`calcEntry` over the directory listing. -/
def calcEntries (selfIno selfDev : Nat) (entries : List FsEntry)
    (recalculate ignoreSymlinks : Bool) (st : TravState)
    (total errorCount : Nat) : Nat × Nat × TravState :=
  match entries with
  | [] => (total, errorCount, st)
  | e :: rest =>
      let p := calcEntry selfIno selfDev e recalculate ignoreSymlinks st
        total errorCount
      calcEntries selfIno selfDev rest recalculate ignoreSymlinks p.2.2
        p.1 p.2.1
end

/-- Function `FileInfo::calculate_directory_size` on a `FileInfo`: the
non-directory early return of lines 212-214, then the directory body
`dirPre` followed, on the recompute path, by the child loop and
`dirPost`.  The recursive call for a subdirectory child (line 305) is
the same directory body, which is how it appears inside `calcEntries`. -/
def calcDirSize (isDir : Bool) (size ino dev : Nat) (readDirOk : Bool)
    (children : List FsEntry) (recalculate ignoreSymlinks : Bool)
    (st : TravState) : Except Unit Nat × TravState :=
  if !isDir then (Except.ok size, st)
  else
    match dirPre ino dev readDirOk recalculate st with
    | .inl done => done
    | .inr st1 =>
        dirPost ino dev
          (calcEntries ino dev children recalculate ignoreSymlinks st1 0 0)

/-- Wrapper for `calculate_directory_size` on a `FileInfo`, as called once per
top-level directory entry (`src/main.rs` line 941). -/
def calculate_directory_size (f : FileInfo) (recalculate ignoreSymlinks : Bool)
    (st : TravState) : Except Unit Nat × TravState :=
  calcDirSize f.is_directory f.size f.inode f.dev f.readDirOk f.children
    recalculate ignoreSymlinks st

/-- Little-endian byte encoding of a value into a fixed number of bytes,
as `u16::to_le_bytes` / `u64::to_le_bytes` produce (low byte first; high
bits beyond the width are dropped, as the `as u16` cast does). -/
def natToLe : Nat → Nat → List Nat
  | _, 0 => []
  | v, k + 1 => v % 256 :: natToLe (v / 256) k

/-- Little-endian byte decoding, as `u16::from_le_bytes` /
`u64::from_le_bytes` evaluate their buffers. -/
def leToNat : List Nat → Nat
  | [] => 0
  | b :: rest => b + 256 * leToNat rest

/-- The validity test of `String::from_utf8` (`src/main.rs` line 763):
standard UTF-8 — ASCII, the two- to four-byte sequences with their
continuation ranges, no overlong encodings, no surrogates, nothing above
`U+10FFFF`.  A list element outside `0..255` fits no pattern and is
invalid. -/
def validUtf8 : List Nat → Bool
  | [] => true
  | b :: rest =>
    if b ≤ 0x7F then validUtf8 rest
    else if 0xC2 ≤ b ∧ b ≤ 0xDF then
      match rest with
      | c :: r2 => if 0x80 ≤ c ∧ c ≤ 0xBF then validUtf8 r2 else false
      | [] => false
    else if b = 0xE0 then
      match rest with
      | c :: d :: r2 =>
          if (0xA0 ≤ c ∧ c ≤ 0xBF) ∧ (0x80 ≤ d ∧ d ≤ 0xBF) then validUtf8 r2
          else false
      | _ => false
    else if (0xE1 ≤ b ∧ b ≤ 0xEC) ∨ b = 0xEE ∨ b = 0xEF then
      match rest with
      | c :: d :: r2 =>
          if (0x80 ≤ c ∧ c ≤ 0xBF) ∧ (0x80 ≤ d ∧ d ≤ 0xBF) then validUtf8 r2
          else false
      | _ => false
    else if b = 0xED then
      match rest with
      | c :: d :: r2 =>
          if (0x80 ≤ c ∧ c ≤ 0x9F) ∧ (0x80 ≤ d ∧ d ≤ 0xBF) then validUtf8 r2
          else false
      | _ => false
    else if b = 0xF0 then
      match rest with
      | c :: d :: e :: r2 =>
          if (0x90 ≤ c ∧ c ≤ 0xBF) ∧ (0x80 ≤ d ∧ d ≤ 0xBF) ∧
              (0x80 ≤ e ∧ e ≤ 0xBF) then validUtf8 r2
          else false
      | _ => false
    else if 0xF1 ≤ b ∧ b ≤ 0xF3 then
      match rest with
      | c :: d :: e :: r2 =>
          if (0x80 ≤ c ∧ c ≤ 0xBF) ∧ (0x80 ≤ d ∧ d ≤ 0xBF) ∧
              (0x80 ≤ e ∧ e ≤ 0xBF) then validUtf8 r2
          else false
      | _ => false
    else if b = 0xF4 then
      match rest with
      | c :: d :: e :: r2 =>
          if (0x80 ≤ c ∧ c ≤ 0x8F) ∧ (0x80 ≤ d ∧ d ≤ 0xBF) ∧
              (0x80 ≤ e ∧ e ≤ 0xBF) then validUtf8 r2
          else false
      | _ => false
    else false

/-- One persisted cache record as `load_cache` builds it and `save_cache`
writes it: the key (as its UTF-8 byte sequence — the Rust `String` key
and its bytes determine each other for valid UTF-8) together with the
`CacheEntry` fields. -/
structure CacheRecord where
  key : List Nat
  size : Nat
  inode : Nat
  device_id : Nat
  size_unit : SizeUnit
deriving DecidableEq, Repr

/-- Insertion `HashMap::insert` keyed by the record's key (`src/main.rs` line 809):
overwrite in place or add at the end. -/
def recInsert (acc : List CacheRecord) (r : CacheRecord) : List CacheRecord :=
  match acc with
  | [] => [r]
  | x :: rest => if x.key = r.key then r :: rest else x :: recInsert rest r

/-- The byte stream `save_cache` (lines 687-709) writes for one record:
2-byte little-endian key length, the key bytes, 8-byte inode plus two
zero padding bytes, 8-byte magnitude, 2-byte unit tag, 8-byte
volume-id. -/
def encodeRecord (r : CacheRecord) : List Nat :=
  natToLe r.key.length 2 ++ r.key ++ natToLe r.inode 8 ++ [0, 0] ++
    natToLe r.size 8 ++ natToLe r.size_unit.to_u16 2 ++
    natToLe r.device_id 8

/-- Function `save_cache`, lines 681-717, without the filesystem plumbing: write
the records back to back; an entry whose key byte length exceeds
`u16::MAX` is skipped with a warning and excluded from the file
(lines 689-692). -/
def save_cache : List CacheRecord → List Nat
  | [] => []
  | r :: rest =>
      (if r.key.length > 65535 then [] else encodeRecord r) ++ save_cache rest

/-- The record-reading loop of `load_cache`, lines 746-818.  Each
`read_exact` is modelled by a length check followed by `take`/`drop`
(`read_exact` fails exactly when fewer bytes remain than the buffer
asks for).  Faithfully to the source:
* a failed read of the 2-byte key length stops the loop cleanly
  (line 748, no corruption count);
* a declared key length of `0` or above `4096` counts one corruption and
  stops (753-756);
* a failed key read, or a failed read of any of the four fixed-width
  fields, counts one corruption and stops (758-762, 771-807);
* a key that is not valid UTF-8 counts one corruption and CONTINUES the
  loop at the position right after the key bytes, leaving the record's
  remaining fields unread (763-769);
* of the 10-byte inode buffer only the first 8 bytes form the inode
  (771-785); an unknown unit tag falls back to `Bytes` via `unwrap_or`
  (line 800) and is not a corruption;
* a completed record is inserted into the map, overwriting its key
  (809-817). -/
def parseLoop (stream : List Nat) (acc : List CacheRecord)
    (corrupted : Nat) : List CacheRecord × Nat :=
  if stream.length < 2 then (acc, corrupted)
  else
    let keyLen := leToNat (stream.take 2)
    let r1 := stream.drop 2
    if hk : keyLen = 0 ∨ keyLen > 4096 then (acc, corrupted + 1)
    else if r1.length < keyLen then (acc, corrupted + 1)
    else
      let keyBytes := r1.take keyLen
      let r2 := r1.drop keyLen
      if validUtf8 keyBytes then
        if r2.length < 10 then (acc, corrupted + 1)
        else
          let inode := leToNat ((r2.take 10).take 8)
          let r3 := r2.drop 10
          if r3.length < 8 then (acc, corrupted + 1)
          else
            let size := leToNat (r3.take 8)
            let r4 := r3.drop 8
            if r4.length < 2 then (acc, corrupted + 1)
            else
              let size_unit := (SizeUnit.from_u16 (leToNat (r4.take 2))).getD
                SizeUnit.Bytes
              let r5 := r4.drop 2
              if r5.length < 8 then (acc, corrupted + 1)
              else
                let device_id := leToNat (r5.take 8)
                let r6 := r5.drop 8
                parseLoop r6
                  (recInsert acc ⟨keyBytes, size, inode, device_id, size_unit⟩)
                  corrupted
      else parseLoop r2 acc (corrupted + 1)
termination_by stream.length
decreasing_by
  all_goals simp only [List.length_drop]
  all_goals omega

/-- Function `load_cache`, lines 719-829, on the cache file's byte contents: an
empty file is the documented "no cache yet" case (731-734), a file above
the 100 MiB ceiling is discarded unparsed (736-742), anything else goes
through the record loop.  Returns the records and the corruption
count. -/
def load_cache (stream : List Nat) : List CacheRecord × Nat :=
  if stream.length = 0 then ([], 0)
  else if stream.length > 100 * 1024 * 1024 then ([], 0)
  else parseLoop stream [] 0

/-- The directory body of `calculate_directory_size` as one function:
`dirPre`, then on the recompute path the child loop and `dirPost`.
`calcDirSize` on a directory is definitionally this. -/
def dirBody (ino dev : Nat) (readDirOk recalculate ignoreSymlinks : Bool)
    (kids : List FsEntry) (st : TravState) : Except Unit Nat × TravState :=
  match dirPre ino dev readDirOk recalculate st with
  | .inl done => done
  | .inr st1 =>
      dirPost ino dev (calcEntries ino dev kids recalculate ignoreSymlinks
        st1 0 0)

mutual
/-- An entry (and, recursively, everything below it) is reachable without
errors: no failed iterator items, no metadata failures, no
`FileInfo::new` failures, and every directory listing succeeds. -/
def entryOk : FsEntry → Bool
  | .readErr => false
  | .metaErr => false
  | .nonDir _ _ => true
  | .subdir newFails _ _ readDirOk kids => !newFails && readDirOk && listOk kids

/-- All entries of a listing are reachable without errors. -/
def listOk : List FsEntry → Bool
  | [] => true
  | e :: rest => entryOk e && listOk rest
end

mutual
/-- The directory identities occurring in an entry's subtree. -/
def entryIdents : FsEntry → List (Nat × Nat)
  | .subdir _ ino dev _ kids => (ino, dev) :: listIdents kids
  | _ => []

/-- The directory identities occurring below a listing.  A tree is
cycle-free exactly when these, together with the root's own identity,
are pairwise distinct. -/
def listIdents : List FsEntry → List (Nat × Nat)
  | [] => []
  | e :: rest => entryIdents e ++ listIdents rest
end

mutual
/-- The byte lengths of the reachable non-directory entries in an
entry's subtree (symlinks excluded when `ignoreSymlinks` is set). -/
def entrySum (ignoreSymlinks : Bool) : FsEntry → Nat
  | .nonDir size isSymlink => if ignoreSymlinks && isSymlink then 0 else size
  | .subdir _ _ _ _ kids => listSum ignoreSymlinks kids
  | _ => 0

/-- The sum of the reachable non-directory byte lengths below a
listing. -/
def listSum (ignoreSymlinks : Bool) : List FsEntry → Nat
  | [] => 0
  | e :: rest => entrySum ignoreSymlinks e + listSum ignoreSymlinks rest
end

/-- The raw byte stream of one on-disk record with an arbitrary unit-tag
value `t`; `encodeRecord` is this applied to a record's own fields. -/
def rawRecord (key : List Nat) (ino size t dev : Nat) : List Nat :=
  natToLe key.length 2 ++ key ++ natToLe ino 8 ++ [0, 0] ++
    natToLe size 8 ++ natToLe t 2 ++ natToLe dev 8

/-- A record as the running program itself produces: the key is valid
UTF-8 (it comes from a Rust `String`) of length `1..4096`, and the
numeric fields are `u64` values. -/
def goodRecord (r : CacheRecord) : Bool :=
  validUtf8 r.key && decide (1 ≤ r.key.length) && decide (r.key.length ≤ 4096)
    && decide (r.inode < 2 ^ 64) && decide (r.size < 2 ^ 64)
    && decide (r.device_id < 2 ^ 64)

theorem satAdd_le_max (a b : Nat) : satAdd a b ≤ U64MAX :=
  min_le_right _ _

theorem satAdd_of_le (a b : Nat) (h : a + b ≤ U64MAX) : satAdd a b = a + b :=
  min_eq_left h

theorem satAdd_of_ge (a b : Nat) (h : U64MAX ≤ a + b) : satAdd a b = U64MAX :=
  min_eq_right h

theorem cacheGet_insert_self (c : Cache) (k : Nat × Nat) (e : CacheEntry) :
    cacheGet (cacheInsert c k e) k = some e := by
  induction c with
  | nil => simp [cacheInsert, cacheGet]
  | cons x rest ih =>
      obtain ⟨k2, e2⟩ := x
      by_cases h : k2 = k
      · simp [cacheInsert, cacheGet, h]
      · simp [cacheInsert, cacheGet, h, ih]

theorem cacheGet_insert_ne (c : Cache) (k q : Nat × Nat) (e : CacheEntry)
    (h : q ≠ k) : cacheGet (cacheInsert c k e) q = cacheGet c q := by
  induction c with
  | nil => simp [cacheInsert, cacheGet, Ne.symm h]
  | cons x rest ih =>
      obtain ⟨k2, e2⟩ := x
      by_cases h2 : k2 = k
      · subst h2
        simp [cacheInsert, cacheGet, Ne.symm h]
      · simp [cacheInsert, cacheGet, h2, ih]

theorem dirPre_mem (ino dev : Nat) (rdOk rc : Bool) (st : TravState)
    (h : (ino, dev) ∈ st.visited) :
    dirPre ino dev rdOk rc st =
      .inl (Except.ok 0, { st with cycleWarnings := st.cycleWarnings + 1 }) := by
  simp [dirPre, h]

theorem dirPre_cases (ino dev : Nat) (rdOk rc : Bool) (st : TravState) :
    ((ino, dev) ∈ st.visited ∧
      dirPre ino dev rdOk rc st =
        .inl (Except.ok 0,
          { st with cycleWarnings := st.cycleWarnings + 1 })) ∨
    ((ino, dev) ∉ st.visited ∧
      ∃ v, dirPre ino dev rdOk rc st = .inl (Except.ok v, st)) ∨
    ((ino, dev) ∉ st.visited ∧ rdOk = true ∧
      dirPre ino dev rdOk rc st =
        .inr { st with visited := (ino, dev) :: st.visited }) := by
  by_cases hm : (ino, dev) ∈ st.visited
  · exact Or.inl ⟨hm, dirPre_mem ino dev rdOk rc st hm⟩
  · rcases hrc : rc with _ | _
    · rcases hget : cacheGet st.cache (get_cache_key ino dev) with _ | entry
      · rcases hrd : rdOk with _ | _
        · exact Or.inr (Or.inl ⟨hm, 0, by simp [dirPre, hm, hget]⟩)
        · exact Or.inr (Or.inr ⟨hm, rfl, by simp [dirPre, hm, hget]⟩)
      · by_cases hdev : dev = entry.device_id
        · subst hdev
          exact Or.inr (Or.inl
            ⟨hm, (entry.size * unitScale entry.size_unit) % U64MOD,
              by simp [dirPre, hm, hget]⟩)
        · rcases hrd : rdOk with _ | _
          · exact Or.inr (Or.inl ⟨hm, 0, by simp [dirPre, hm, hget, hdev]⟩)
          · exact Or.inr (Or.inr ⟨hm, rfl, by simp [dirPre, hm, hget, hdev]⟩)
    · rcases hrd : rdOk with _ | _
      · exact Or.inr (Or.inl ⟨hm, 0, by simp [dirPre, hm]⟩)
      · exact Or.inr (Or.inr ⟨hm, rfl, by simp [dirPre, hm]⟩)

mutual
theorem calcEntry_visited (selfIno selfDev : Nat) (e : FsEntry)
    (rc ign : Bool) (st : TravState) (total err : Nat) :
    (calcEntry selfIno selfDev e rc ign st total err).2.2.visited =
      st.visited := by
  cases e with
  | readErr => rfl
  | metaErr => rfl
  | nonDir size isSymlink =>
      by_cases h : ign && isSymlink
      · simp [calcEntry, h]
      · simp [calcEntry, h]
  | subdir newFails ino dev readDirOk kids =>
      by_cases h1 : ino = selfIno ∧ dev = selfDev
      · simp [calcEntry, h1]
      · by_cases h2 : (ino, dev) ∈ st.visited
        · simp [calcEntry, h1, h2]
        · rcases hnf : newFails with _ | _
          · rcases dirPre_cases ino dev readDirOk rc st with
              ⟨hm, _⟩ | ⟨_, v, hp⟩ | ⟨_, _, hp⟩
            · exact absurd hm h2
            · rcases hv : (dirPre ino dev readDirOk rc st) with done | st1
              · have hd : done = (Except.ok v, st) := by
                  rw [hv] at hp
                  exact Sum.inl.inj hp
                subst hd
                simp [calcEntry, h1, h2, hnf, hv]
              · rw [hv] at hp
                cases hp
            · rcases hv : (dirPre ino dev readDirOk rc st) with done | st1
              · rw [hv] at hp
                cases hp
              · have hd : st1 = { st with visited := (ino, dev) :: st.visited } := by
                  rw [hv] at hp
                  exact Sum.inr.inj hp
                subst hd
                have hrec := calcEntries_visited ino dev kids rc ign
                  { st with visited := (ino, dev) :: st.visited } 0 0
                simp [calcEntry, h1, h2, hnf, hv, dirPost, hrec,
                  List.erase_cons_head]
          · simp [calcEntry, h1, h2, hnf]

theorem calcEntries_visited (selfIno selfDev : Nat) (entries : List FsEntry)
    (rc ign : Bool) (st : TravState) (total err : Nat) :
    (calcEntries selfIno selfDev entries rc ign st total err).2.2.visited =
      st.visited := by
  cases entries with
  | nil => rfl
  | cons e rest =>
      have h1 := calcEntry_visited selfIno selfDev e rc ign st total err
      have h2 := calcEntries_visited selfIno selfDev rest rc ign
        (calcEntry selfIno selfDev e rc ign st total err).2.2
        (calcEntry selfIno selfDev e rc ign st total err).1
        (calcEntry selfIno selfDev e rc ign st total err).2.1
      calc (calcEntries selfIno selfDev (e :: rest) rc ign st
              total err).2.2.visited
          = (calcEntries selfIno selfDev rest rc ign
              (calcEntry selfIno selfDev e rc ign st total err).2.2
              (calcEntry selfIno selfDev e rc ign st total err).1
              (calcEntry selfIno selfDev e rc ign st total err).2.1).2.2.visited
            := rfl
        _ = (calcEntry selfIno selfDev e rc ign st total err).2.2.visited := h2
        _ = st.visited := h1
end

theorem calcDirSize_visited (isDir : Bool) (size ino dev : Nat)
    (rdOk : Bool) (kids : List FsEntry) (rc ign : Bool) (st : TravState) :
    ((calcDirSize isDir size ino dev rdOk kids rc ign st).2).visited =
      st.visited := by
  rcases hd : isDir with _ | _
  · simp [calcDirSize]
  · rcases dirPre_cases ino dev rdOk rc st with
      ⟨hm, hp⟩ | ⟨hm, v, hp⟩ | ⟨hm, hrd, hp⟩
    · simp [calcDirSize, hp]
    · simp [calcDirSize, hp]
    · have hrec := calcEntries_visited ino dev kids rc ign
        { st with visited := (ino, dev) :: st.visited } 0 0
      simp [calcDirSize, hp, dirPost, hrec, List.erase_cons_head]

theorem calcDirSize_ok (isDir : Bool) (size ino dev : Nat)
    (rdOk : Bool) (kids : List FsEntry) (rc ign : Bool) (st : TravState) :
    ∃ v, (calcDirSize isDir size ino dev rdOk kids rc ign st).1 =
      Except.ok v := by
  rcases hd : isDir with _ | _
  · exact ⟨size, by simp [calcDirSize]⟩
  · rcases dirPre_cases ino dev rdOk rc st with
      ⟨hm, hp⟩ | ⟨hm, v, hp⟩ | ⟨hm, hrd, hp⟩
    · exact ⟨0, by simp [calcDirSize, hp]⟩
    · exact ⟨v, by simp [calcDirSize, hp]⟩
    · exact ⟨(calcEntries ino dev kids rc ign
        { st with visited := (ino, dev) :: st.visited } 0 0).1,
        by simp [calcDirSize, hp, dirPost]⟩

theorem calcEntry_le (selfIno selfDev : Nat) (e : FsEntry) (rc ign : Bool)
    (st : TravState) (total err : Nat) (h : total ≤ U64MAX) :
    (calcEntry selfIno selfDev e rc ign st total err).1 ≤ U64MAX := by
  cases e with
  | readErr => exact h
  | metaErr => exact h
  | nonDir size isSymlink =>
      by_cases hs : ign && isSymlink
      · simpa [calcEntry, hs] using h
      · simpa [calcEntry, hs] using satAdd_le_max total size
  | subdir newFails ino dev readDirOk kids =>
      by_cases h1 : ino = selfIno ∧ dev = selfDev
      · simpa [calcEntry, h1] using h
      · by_cases h2 : (ino, dev) ∈ st.visited
        · simpa [calcEntry, h1, h2] using h
        · rcases hnf : newFails with _ | _
          · simp only [calcEntry, h1, h2, hnf]
            rcases hr : (match dirPre ino dev readDirOk rc st with
              | .inl done => done
              | .inr st1 =>
                  dirPost ino dev
                    (calcEntries ino dev kids rc ign st1 0 0)).1 with _ | v
            · simpa [hr] using h
            · simpa [hr] using satAdd_le_max total v
          · simpa [calcEntry, h1, h2, hnf] using h

theorem calcEntries_le (selfIno selfDev : Nat) (entries : List FsEntry)
    (rc ign : Bool) (st : TravState) (total err : Nat) (h : total ≤ U64MAX) :
    (calcEntries selfIno selfDev entries rc ign st total err).1 ≤ U64MAX := by
  induction entries generalizing st total err with
  | nil => exact h
  | cons e rest ih =>
      exact ih _ _ _ (calcEntry_le selfIno selfDev e rc ign st total err h)

theorem calcEntry_skip (selfIno selfDev : Nat) (newFails : Bool)
    (ino dev : Nat) (readDirOk : Bool) (kids : List FsEntry) (rc ign : Bool)
    (st : TravState) (total err : Nat)
    (h : (ino = selfIno ∧ dev = selfDev) ∨ (ino, dev) ∈ st.visited) :
    calcEntry selfIno selfDev (.subdir newFails ino dev readDirOk kids)
      rc ign st total err = (total, err, st) := by
  by_cases h1 : ino = selfIno ∧ dev = selfDev
  · simp [calcEntry, h1]
  · have h2 : (ino, dev) ∈ st.visited := h.resolve_left h1
    simp [calcEntry, h1, h2]

theorem calcEntries_append (selfIno selfDev : Nat) (xs ys : List FsEntry)
    (rc ign : Bool) (st : TravState) (total err : Nat) :
    calcEntries selfIno selfDev (xs ++ ys) rc ign st total err =
      calcEntries selfIno selfDev ys rc ign
        (calcEntries selfIno selfDev xs rc ign st total err).2.2
        (calcEntries selfIno selfDev xs rc ign st total err).1
        (calcEntries selfIno selfDev xs rc ign st total err).2.1 := by
  induction xs generalizing st total err with
  | nil => rfl
  | cons e rest ih =>
      calc calcEntries selfIno selfDev ((e :: rest) ++ ys) rc ign st total err
          = calcEntries selfIno selfDev (rest ++ ys) rc ign
              (calcEntry selfIno selfDev e rc ign st total err).2.2
              (calcEntry selfIno selfDev e rc ign st total err).1
              (calcEntry selfIno selfDev e rc ign st total err).2.1 := rfl
        _ = calcEntries selfIno selfDev ys rc ign
              (calcEntries selfIno selfDev rest rc ign
                (calcEntry selfIno selfDev e rc ign st total err).2.2
                (calcEntry selfIno selfDev e rc ign st total err).1
                (calcEntry selfIno selfDev e rc ign st total err).2.1).2.2
              (calcEntries selfIno selfDev rest rc ign
                (calcEntry selfIno selfDev e rc ign st total err).2.2
                (calcEntry selfIno selfDev e rc ign st total err).1
                (calcEntry selfIno selfDev e rc ign st total err).2.1).1
              (calcEntries selfIno selfDev rest rc ign
                (calcEntry selfIno selfDev e rc ign st total err).2.2
                (calcEntry selfIno selfDev e rc ign st total err).1
                (calcEntry selfIno selfDev e rc ign st total err).2.1).2.1 :=
            ih _ _ _
        _ = calcEntries selfIno selfDev ys rc ign
              (calcEntries selfIno selfDev (e :: rest) rc ign st
                total err).2.2
              (calcEntries selfIno selfDev (e :: rest) rc ign st total err).1
              (calcEntries selfIno selfDev (e :: rest) rc ign st
                total err).2.1 := rfl

theorem calcEntries_skip_cyclic (selfIno selfDev : Nat)
    (pre post : List FsEntry) (newFails : Bool) (ino dev : Nat)
    (readDirOk : Bool) (kids : List FsEntry) (rc ign : Bool)
    (st : TravState) (total err : Nat)
    (h : (ino = selfIno ∧ dev = selfDev) ∨ (ino, dev) ∈ st.visited) :
    calcEntries selfIno selfDev
        (pre ++ .subdir newFails ino dev readDirOk kids :: post)
        rc ign st total err =
      calcEntries selfIno selfDev (pre ++ post) rc ign st total err := by
  rw [calcEntries_append, calcEntries_append]
  have hvis := calcEntries_visited selfIno selfDev pre rc ign st total err
  have hskip := calcEntry_skip selfIno selfDev newFails ino dev readDirOk
    kids rc ign (calcEntries selfIno selfDev pre rc ign st total err).2.2
    (calcEntries selfIno selfDev pre rc ign st total err).1
    (calcEntries selfIno selfDev pre rc ign st total err).2.1
    (by rw [hvis]; exact h)
  calc calcEntries selfIno selfDev
        (FsEntry.subdir newFails ino dev readDirOk kids :: post) rc ign
        (calcEntries selfIno selfDev pre rc ign st total err).2.2
        (calcEntries selfIno selfDev pre rc ign st total err).1
        (calcEntries selfIno selfDev pre rc ign st total err).2.1
      = calcEntries selfIno selfDev post rc ign
        (calcEntry selfIno selfDev
          (.subdir newFails ino dev readDirOk kids) rc ign
          (calcEntries selfIno selfDev pre rc ign st total err).2.2
          (calcEntries selfIno selfDev pre rc ign st total err).1
          (calcEntries selfIno selfDev pre rc ign st total err).2.1).2.2
        (calcEntry selfIno selfDev
          (.subdir newFails ino dev readDirOk kids) rc ign
          (calcEntries selfIno selfDev pre rc ign st total err).2.2
          (calcEntries selfIno selfDev pre rc ign st total err).1
          (calcEntries selfIno selfDev pre rc ign st total err).2.1).1
        (calcEntry selfIno selfDev
          (.subdir newFails ino dev readDirOk kids) rc ign
          (calcEntries selfIno selfDev pre rc ign st total err).2.2
          (calcEntries selfIno selfDev pre rc ign st total err).1
          (calcEntries selfIno selfDev pre rc ign st total err).2.1).2.1 := rfl
    _ = _ := by rw [hskip]

theorem calcDirSize_mem (size ino dev : Nat) (rdOk : Bool)
    (kids : List FsEntry) (rc ign : Bool) (st : TravState)
    (h : (ino, dev) ∈ st.visited) :
    calcDirSize true size ino dev rdOk kids rc ign st =
      (Except.ok 0, { st with cycleWarnings := st.cycleWarnings + 1 }) := by
  simp [calcDirSize, dirPre_mem ino dev rdOk rc st h]

theorem calcDirSize_hit (size ino dev : Nat) (rdOk : Bool)
    (kids : List FsEntry) (ign : Bool) (st : TravState) (entry : CacheEntry)
    (hm : (ino, dev) ∉ st.visited)
    (hget : cacheGet st.cache (get_cache_key ino dev) = some entry)
    (hdev : dev = entry.device_id) :
    calcDirSize true size ino dev rdOk kids false ign st =
      (Except.ok ((entry.size * unitScale entry.size_unit) % U64MOD), st) := by
  subst hdev
  simp [calcDirSize, dirPre, hm, hget]

theorem calcDirSize_miss (size ino dev : Nat) (rdOk : Bool)
    (kids : List FsEntry) (ign : Bool) (st : TravState) (entry : CacheEntry)
    (hm : (ino, dev) ∉ st.visited)
    (hget : cacheGet st.cache (get_cache_key ino dev) = some entry)
    (hdev : ¬(dev = entry.device_id)) :
    calcDirSize true size ino dev rdOk kids false ign st =
      (if rdOk then
        dirPost ino dev (calcEntries ino dev kids false ign
          { st with visited := (ino, dev) :: st.visited } 0 0)
      else (Except.ok 0, st)) := by
  rcases hrd : rdOk with _ | _
  · simp [calcDirSize, dirPre, hm, hget, hdev]
  · simp [calcDirSize, dirPre, hm, hget, hdev]

/-- C7: for every call to `calculate_directory_size` and every initial
visited set, the visited set at return equals the visited set at entry:
the identity inserted on entering a directory is removed on every return
path that inserted it (cache hit, listing failure, normal completion),
so a later non-cyclic reappearance of the same identity is still
computed. -/
theorem spec_C7 (f : FileInfo) (rc ign : Bool) (st : TravState) :
    ((calculate_directory_size f rc ign st).2).visited = st.visited :=
  calcDirSize_visited f.is_directory f.size f.inode f.dev f.readDirOk
    f.children rc ign st

/-- C9: for every input entry, cache state, visited set and
configuration, `calculate_directory_size` returns `Ok`: its `io::Result`
error branch is never produced — unreadable listings return `Ok(0)` and
per-child failures are absorbed as zero-byte contributions. -/
theorem spec_C9 (f : FileInfo) (rc ign : Bool) (st : TravState) :
    ∃ v, (calculate_directory_size f rc ign st).1 = Except.ok v :=
  calcDirSize_ok f.is_directory f.size f.inode f.dev f.readDirOk
    f.children rc ign st

/-- C8: accumulation in `calculate_directory_size` uses saturating
addition: an addition that would exceed the maximum representable 64-bit
value produces exactly that maximum, every saturating addition stays
representable, and the child loop's accumulated total never exceeds the
maximum (so it never wraps; the functions are total, so accumulation
never panics). -/
theorem spec_C8 :
    (∀ a b : Nat, U64MAX < a + b → satAdd a b = U64MAX) ∧
    (∀ a b : Nat, satAdd a b ≤ U64MAX) ∧
    (∀ (selfIno selfDev : Nat) (entries : List FsEntry) (rc ign : Bool)
        (st : TravState) (total err : Nat), total ≤ U64MAX →
      (calcEntries selfIno selfDev entries rc ign st total err).1 ≤ U64MAX) :=
  ⟨fun a b h => satAdd_of_ge a b (le_of_lt h), satAdd_le_max, calcEntries_le⟩

theorem spec_C8_witness :
    satAdd U64MAX 1 = U64MAX ∧
    (calcEntries 1 5 [.nonDir 100 false] false false ⟨[], [], 0⟩ 0 0).1 ≤
      U64MAX :=
  ⟨spec_C8.1 U64MAX 1 (by decide),
   spec_C8.2.2 1 5 [.nonDir 100 false] false false ⟨[], [], 0⟩ 0 0
     (by decide)⟩

/-- C3 (amended): a traversal of a directory containing an alias back to
the directory itself or to one of its ancestors terminates (the
traversal functions are total) and excludes the cyclic branch from the
returned total, but logs NO cycle warning for that edge: the child loop
skips a subdirectory child whose identity equals the current directory's
own identity or is already on the active path, silently and without
recursing, so the run with the cyclic child equals the run without it.
The "already active" entry branch — which does log a cycle warning and
return 0 without removing anything from the visited set — behaves as the
spec describes but is not reached through a consistent child listing. -/
theorem spec_C3 :
    (∀ (selfIno selfDev : Nat) (pre post : List FsEntry) (newFails : Bool)
        (ino dev : Nat) (readDirOk : Bool) (kids : List FsEntry)
        (rc ign : Bool) (st : TravState) (total err : Nat),
      (ino = selfIno ∧ dev = selfDev) ∨ (ino, dev) ∈ st.visited →
      calcEntries selfIno selfDev
          (pre ++ .subdir newFails ino dev readDirOk kids :: post)
          rc ign st total err =
        calcEntries selfIno selfDev (pre ++ post) rc ign st total err) ∧
    (∀ (size ino dev : Nat) (rdOk : Bool) (kids : List FsEntry)
        (rc ign : Bool) (st : TravState), (ino, dev) ∈ st.visited →
      calcDirSize true size ino dev rdOk kids rc ign st =
        (Except.ok 0,
          { st with cycleWarnings := st.cycleWarnings + 1 })) :=
  ⟨fun selfIno selfDev pre post newFails ino dev readDirOk kids rc ign st
      total err h =>
    calcEntries_skip_cyclic selfIno selfDev pre post newFails ino dev
      readDirOk kids rc ign st total err h,
   fun size ino dev rdOk kids rc ign st h =>
    calcDirSize_mem size ino dev rdOk kids rc ign st h⟩

theorem spec_C3_witness :
    calcEntries 1 5
        [.nonDir 100 false, .subdir false 1 5 true [], .nonDir 50 false]
        false false ⟨[], [], 0⟩ 0 0 =
      calcEntries 1 5 [.nonDir 100 false, .nonDir 50 false]
        false false ⟨[], [], 0⟩ 0 0 ∧
    calcDirSize true 0 1 5 true [] false false ⟨[], [(1, 5)], 0⟩ =
      (Except.ok 0, ⟨[], [(1, 5)], 1⟩) :=
  ⟨spec_C3.1 1 5 [.nonDir 100 false] [.nonDir 50 false] false 1 5 true []
      false false ⟨[], [], 0⟩ 0 0 (Or.inl ⟨rfl, rfl⟩),
   spec_C3.2 0 1 5 true [] false false ⟨[], [(1, 5)], 0⟩ (by decide)⟩

theorem spec_C3_cex :
    calculate_directory_size
        ⟨1, 0, true, 5, true,
          [.nonDir 100 false, .nonDir 50 false, .subdir false 1 5 true []]⟩
        false false ⟨[], [], 0⟩ =
      (Except.ok 150, ⟨[((1, 5), ⟨150, 1, 5, .Bytes⟩)], [], 0⟩) ∧
    ¬((calculate_directory_size
        ⟨1, 0, true, 5, true,
          [.nonDir 100 false, .nonDir 50 false, .subdir false 1 5 true []]⟩
        false false ⟨[], [], 0⟩).2.cycleWarnings = 1) :=
  ⟨rfl, by decide⟩

/-- C5 (amended): with force-recompute off, a cached value is used only
if a record exists for the directory's key and its stored volume-id
equals the live one; the value used is then exactly
`stored_magnitude * unit_scale(unit)` reduced modulo `2 ^ 64` (the `u64`
product; it equals the plain product whenever that is representable),
and the state is returned untouched — the traversal engine performs no
other scaling.  On a volume-id mismatch the hit is rejected and the
traversal proceeds to the recompute path, even though the key matches. -/
theorem spec_C5 (size ino dev : Nat) (rdOk : Bool) (kids : List FsEntry)
    (ign : Bool) (st : TravState) (entry : CacheEntry)
    (hm : (ino, dev) ∉ st.visited)
    (hget : cacheGet st.cache (get_cache_key ino dev) = some entry) :
    (dev = entry.device_id →
      calcDirSize true size ino dev rdOk kids false ign st =
        (Except.ok ((entry.size * unitScale entry.size_unit) % U64MOD),
          st)) ∧
    (¬(dev = entry.device_id) →
      calcDirSize true size ino dev rdOk kids false ign st =
        (if rdOk then
          dirPost ino dev (calcEntries ino dev kids false ign
            { st with visited := (ino, dev) :: st.visited } 0 0)
        else (Except.ok 0, st))) :=
  ⟨fun hdev => calcDirSize_hit size ino dev rdOk kids ign st entry hm hget
      hdev,
   fun hdev => calcDirSize_miss size ino dev rdOk kids ign st entry hm hget
      hdev⟩

theorem spec_C5_witness :
    calcDirSize true 0 1 5 true [] false false
        ⟨[((1, 5), ⟨300, 1, 5, .Bytes⟩)], [], 0⟩ =
      (Except.ok 300, ⟨[((1, 5), ⟨300, 1, 5, .Bytes⟩)], [], 0⟩) ∧
    calcDirSize true 0 1 5 false [] false false
        ⟨[((1, 5), ⟨300, 1, 7, .Bytes⟩)], [], 0⟩ =
      (Except.ok 0, ⟨[((1, 5), ⟨300, 1, 7, .Bytes⟩)], [], 0⟩) :=
  ⟨(spec_C5 0 1 5 true [] false ⟨[((1, 5), ⟨300, 1, 5, .Bytes⟩)], [], 0⟩
      ⟨300, 1, 5, .Bytes⟩ (by decide) rfl).1 rfl,
   (spec_C5 0 1 5 false [] false ⟨[((1, 5), ⟨300, 1, 7, .Bytes⟩)], [], 0⟩
      ⟨300, 1, 7, .Bytes⟩ (by decide) rfl).2 (by decide)⟩

theorem spec_C5_cex :
    (calcDirSize true 0 1 5 true [] false false
        ⟨[((1, 5), ⟨2 ^ 63, 1, 5, .Kilobytes⟩)], [], 0⟩).1 =
      Except.ok 0 ∧
    2 ^ 63 * unitScale SizeUnit.Kilobytes ≠ 0 :=
  ⟨rfl, by decide⟩

theorem dirPre_nohit (ino dev : Nat) (rc : Bool) (st : TravState)
    (h1 : (ino, dev) ∉ st.visited)
    (h2 : cacheGet st.cache (get_cache_key ino dev) = none) :
    dirPre ino dev true rc st =
      .inr { st with visited := (ino, dev) :: st.visited } := by
  rcases hrc : rc with _ | _
  · simp [dirPre, h1, h2]
  · simp [dirPre, h1]

theorem calcEntry_subdir_run (selfIno selfDev ino dev : Nat) (rdOk : Bool)
    (kids : List FsEntry) (rc ign : Bool) (st : TravState) (total err : Nat)
    (h1 : ¬(ino = selfIno ∧ dev = selfDev))
    (h2 : (ino, dev) ∉ st.visited) :
    calcEntry selfIno selfDev (.subdir false ino dev rdOk kids) rc ign st
        total err =
      (match (dirBody ino dev rdOk rc ign kids st).1 with
        | Except.ok subSize =>
            (satAdd total subSize, err,
              (dirBody ino dev rdOk rc ign kids st).2)
        | Except.error _ =>
            (total, err + 1, (dirBody ino dev rdOk rc ign kids st).2)) := by
  simp [calcEntry, h1, h2, dirBody]


theorem calcEntries_additive_aux : ∀ (n selfIno selfDev : Nat)
    (entries : List FsEntry) (rc ign : Bool) (st : TravState)
    (total err : Nat),
    sizeOf entries ≤ n →
    listOk entries = true →
    (listIdents entries).Nodup →
    (∀ p ∈ listIdents entries, p ∉ st.visited) →
    (selfIno, selfDev) ∈ st.visited →
    (∀ p ∈ listIdents entries, cacheGet st.cache p = none) →
    total + listSum ign entries ≤ U64MAX →
    (calcEntries selfIno selfDev entries rc ign st total err).1 =
        total + listSum ign entries ∧
      (calcEntries selfIno selfDev entries rc ign st total err).2.1 = err ∧
      (∀ q, q ∉ listIdents entries →
        cacheGet
          (calcEntries selfIno selfDev entries rc ign st total err).2.2.cache
          q = cacheGet st.cache q) := by
  intro n
  induction n using Nat.strong_induction_on with
  | _ n IH =>
  intro selfIno selfDev entries rc ign st total err hsz hok hnd hvis hself
    hcache hsum
  cases entries with
  | nil =>
      exact ⟨by simp [calcEntries, listSum], rfl, fun q _ => rfl⟩
  | cons e rest =>
  cases e with
  | readErr => simp [listOk, entryOk] at hok
  | metaErr => simp [listOk, entryOk] at hok
  | nonDir size isSymlink =>
      simp only [listOk, Bool.and_eq_true, entryOk] at hok
      have hokr : listOk rest = true := hok.2
      have hids : listIdents (FsEntry.nonDir size isSymlink :: rest) =
          listIdents rest := by
        simp [listIdents, entryIdents]
      rw [hids] at hnd hvis hcache
      have hszr : sizeOf rest < n := by
        simp at hsz
        omega
      have hsum2 : total + entrySum ign (FsEntry.nonDir size isSymlink) +
          listSum ign rest ≤ U64MAX := by
        simp only [listSum] at hsum
        omega
      by_cases hs : ign && isSymlink
      · have hstep : calcEntries selfIno selfDev
            (FsEntry.nonDir size isSymlink :: rest) rc ign st total err =
            calcEntries selfIno selfDev rest rc ign st total err := by
          simp [calcEntries, calcEntry, hs]
        obtain ⟨hr1, hr2, hr3⟩ := IH (sizeOf rest) hszr selfIno selfDev rest
          rc ign st total err le_rfl hokr hnd hvis hself hcache
          (by simp only [entrySum, hs, if_pos] at hsum2; omega)
        refine ⟨?_, ?_, ?_⟩
        · rw [hstep, hr1]
          simp [listSum, entrySum, hs]
        · rw [hstep, hr2]
        · intro q hq
          rw [hids] at hq
          rw [hstep, hr3 q hq]
      · have hstep : calcEntries selfIno selfDev
            (FsEntry.nonDir size isSymlink :: rest) rc ign st total err =
            calcEntries selfIno selfDev rest rc ign st (satAdd total size)
              err := by
          simp [calcEntries, calcEntry, hs]
        have hes : entrySum ign (FsEntry.nonDir size isSymlink) = size := by
          simp [entrySum, hs]
        have hsat : satAdd total size = total + size :=
          satAdd_of_le total size (by rw [← hes] at *; omega)
        obtain ⟨hr1, hr2, hr3⟩ := IH (sizeOf rest) hszr selfIno selfDev rest
          rc ign st (satAdd total size) err le_rfl hokr hnd hvis hself
          hcache (by rw [hsat]; rw [hes] at hsum2; omega)
        refine ⟨?_, ?_, ?_⟩
        · rw [hstep, hr1, hsat]
          simp only [listSum, hes]
          omega
        · rw [hstep, hr2]
        · intro q hq
          rw [hids] at hq
          rw [hstep, hr3 q hq]
  | subdir newFails ino dev readDirOk kids =>
      simp only [listOk, entryOk, Bool.and_eq_true, Bool.not_eq_true']
        at hok
      obtain ⟨⟨⟨hnf, hrd⟩, hokk⟩, hokr⟩ := hok
      subst hnf
      subst hrd
      have hids : listIdents (FsEntry.subdir false ino dev true kids ::
          rest) = (ino, dev) :: (listIdents kids ++ listIdents rest) := by
        simp [listIdents, entryIdents]
      rw [hids] at hnd hvis hcache
      rw [List.nodup_cons] at hnd
      obtain ⟨hhead, htail⟩ := hnd
      rw [List.nodup_append] at htail
      obtain ⟨hndk, hndr, hdisj⟩ := htail
      have hheadk : (ino, dev) ∉ listIdents kids := fun hh =>
        hhead (List.mem_append_left _ hh)
      have hheadr : (ino, dev) ∉ listIdents rest := fun hh =>
        hhead (List.mem_append_right _ hh)
      have hvh : (ino, dev) ∉ st.visited :=
        hvis _ (List.mem_cons_self _ _)
      have hch : cacheGet st.cache (get_cache_key ino dev) = none :=
        hcache _ (List.mem_cons_self _ _)
      have h1 : ¬(ino = selfIno ∧ dev = selfDev) := by
        rintro ⟨ha, hb⟩
        subst ha
        subst hb
        exact hvh hself
      have hszk : sizeOf kids < n := by
        simp at hsz
        omega
      have hszr : sizeOf rest < n := by
        simp at hsz
        omega
      have hsum2 : total + listSum ign kids + listSum ign rest ≤ U64MAX := by
        simp only [listSum, entrySum] at hsum
        omega
      set p := calcEntry selfIno selfDev
        (FsEntry.subdir false ino dev true kids) rc ign st total err
        with hpdef
      set Q := calcEntries ino dev kids rc ign
        { st with visited := (ino, dev) :: st.visited } 0 0 with hQdef
      have hrun := calcEntry_subdir_run selfIno selfDev ino dev true kids
        rc ign st total err h1 hvh
      have hbody : dirBody ino dev true rc ign kids st =
          dirPost ino dev Q := by
        unfold dirBody
        rw [dirPre_nohit ino dev rc st hvh hch]
      obtain ⟨hq1, hq2, hq3⟩ := IH (sizeOf kids) hszk ino dev kids rc ign
        { st with visited := (ino, dev) :: st.visited } 0 0 le_rfl hokk hndk
        (by
          intro p2 hp2
          simp only [List.mem_cons]
          rintro (hpe | hpe)
          · exact hheadk (hpe ▸ hp2)
          · exact hvis p2
              (List.mem_cons_of_mem _ (List.mem_append_left _ hp2)) hpe)
        (List.mem_cons_self _ _)
        (by
          intro p2 hp2
          exact hcache p2
            (List.mem_cons_of_mem _ (List.mem_append_left _ hp2)))
        (by omega)
      have hqv : Q.2.2.visited = (ino, dev) :: st.visited :=
        calcEntries_visited ino dev kids rc ign
          { st with visited := (ino, dev) :: st.visited } 0 0
      have hq1b : Q.1 = listSum ign kids := by
        rw [hq1]
        omega
      have hp : p = (satAdd total Q.1, err, (dirPost ino dev Q).2) := by
        rw [hpdef, hrun, hbody]
        simp [dirPost]
      have hsat : satAdd total Q.1 = total + listSum ign kids := by
        rw [hq1b]
        exact satAdd_of_le _ _ (by omega)
      have hst2v : (dirPost ino dev Q).2.visited = st.visited := by
        show (Q.2.2.visited).erase (ino, dev) = st.visited
        rw [hqv]
        exact List.erase_cons_head _ _
      have hst2c : ∀ q2 : Nat × Nat, q2 ≠ (ino, dev) →
          q2 ∉ listIdents kids →
          cacheGet (dirPost ino dev Q).2.cache q2 = cacheGet st.cache q2 := by
        intro q2 hne hnk
        have hne2 : q2 ≠ get_cache_key ino dev := hne
        show cacheGet (cacheInsert Q.2.2.cache (get_cache_key ino dev) _)
          q2 = _
        rw [cacheGet_insert_ne _ _ _ _ hne2]
        exact hq3 q2 hnk
      have hmain : calcEntries selfIno selfDev
          (FsEntry.subdir false ino dev true kids :: rest) rc ign st total
          err = calcEntries selfIno selfDev rest rc ign
          (dirPost ino dev Q).2 (total + listSum ign kids) err := by
        have hcons : calcEntries selfIno selfDev
            (FsEntry.subdir false ino dev true kids :: rest) rc ign st
            total err = calcEntries selfIno selfDev rest rc ign p.2.2 p.1
            p.2.1 := rfl
        rw [hcons, hp, hsat]
      obtain ⟨hr1, hr2, hr3⟩ := IH (sizeOf rest) hszr selfIno selfDev rest
        rc ign (dirPost ino dev Q).2 (total + listSum ign kids) err le_rfl
        hokr hndr
        (by
          intro p2 hp2
          rw [hst2v]
          exact hvis p2
            (List.mem_cons_of_mem _ (List.mem_append_right _ hp2)))
        (by rw [hst2v]; exact hself)
        (by
          intro p2 hp2
          rw [hst2c p2 (fun hh => hheadr (hh ▸ hp2))
            (fun hh => hdisj hh hp2)]
          exact hcache p2
            (List.mem_cons_of_mem _ (List.mem_append_right _ hp2)))
        (by omega)
      refine ⟨?_, ?_, ?_⟩
      · rw [hmain, hr1]
        simp only [listSum, entrySum]
        omega
      · rw [hmain, hr2]
      · intro q hq
        rw [hids] at hq
        have hqh : q ≠ (ino, dev) := fun hh =>
          hq (hh ▸ List.mem_cons_self _ _)
        have hqk : q ∉ listIdents kids := fun hh =>
          hq (List.mem_cons_of_mem _ (List.mem_append_left _ hh))
        have hqr : q ∉ listIdents rest := fun hh =>
          hq (List.mem_cons_of_mem _ (List.mem_append_right _ hh))
        rw [hmain, hr3 q hqr, hst2c q hqh hqk]

theorem calcEntries_additive (selfIno selfDev : Nat) (entries : List FsEntry)
    (rc ign : Bool) (st : TravState) (total err : Nat)
    (hok : listOk entries = true)
    (hnd : (listIdents entries).Nodup)
    (hvis : ∀ p ∈ listIdents entries, p ∉ st.visited)
    (hself : (selfIno, selfDev) ∈ st.visited)
    (hcache : ∀ p ∈ listIdents entries, cacheGet st.cache p = none)
    (hsum : total + listSum ign entries ≤ U64MAX) :
    (calcEntries selfIno selfDev entries rc ign st total err).1 =
        total + listSum ign entries ∧
      (calcEntries selfIno selfDev entries rc ign st total err).2.1 = err ∧
      (∀ q, q ∉ listIdents entries →
        cacheGet
          (calcEntries selfIno selfDev entries rc ign st total err).2.2.cache
          q = cacheGet st.cache q) :=
  calcEntries_additive_aux (sizeOf entries) selfIno selfDev entries rc ign
    st total err le_rfl hok hnd hvis hself hcache hsum

theorem dirBody_additive (ino dev : Nat) (rc ign : Bool)
    (kids : List FsEntry) (st : TravState)
    (hok : listOk kids = true)
    (hnd : ((ino, dev) :: listIdents kids).Nodup)
    (hvis : ∀ p ∈ (ino, dev) :: listIdents kids, p ∉ st.visited)
    (hcache : ∀ p ∈ (ino, dev) :: listIdents kids,
      cacheGet st.cache p = none)
    (hsum : listSum ign kids ≤ U64MAX) :
    (dirBody ino dev true rc ign kids st).1 =
        Except.ok (listSum ign kids) ∧
      (dirBody ino dev true rc ign kids st).2.visited = st.visited ∧
      cacheGet (dirBody ino dev true rc ign kids st).2.cache
          (get_cache_key ino dev) =
        some ⟨listSum ign kids, ino, dev, SizeUnit.Bytes⟩ ∧
      (∀ q, q ∉ (ino, dev) :: listIdents kids →
        cacheGet (dirBody ino dev true rc ign kids st).2.cache q =
          cacheGet st.cache q) := by
  have hvh : (ino, dev) ∉ st.visited := hvis _ (List.mem_cons_self _ _)
  have hch : cacheGet st.cache (get_cache_key ino dev) = none :=
    hcache _ (List.mem_cons_self _ _)
  have hbody : dirBody ino dev true rc ign kids st =
      dirPost ino dev (calcEntries ino dev kids rc ign
        { st with visited := (ino, dev) :: st.visited } 0 0) := by
    unfold dirBody
    rw [dirPre_nohit ino dev rc st hvh hch]
  rw [List.nodup_cons] at hnd
  obtain ⟨hhead, hndk⟩ := hnd
  obtain ⟨hr1, hr2, hr3⟩ := calcEntries_additive ino dev kids rc ign
    { st with visited := (ino, dev) :: st.visited } 0 0 hok hndk
    (by
      intro p hp
      simp only [List.mem_cons]
      rintro (hpe | hpe)
      · exact hhead (hpe ▸ hp)
      · exact hvis p (List.mem_cons_of_mem _ hp) hpe)
    (List.mem_cons_self _ _)
    (by
      intro p hp
      exact hcache p (List.mem_cons_of_mem _ hp))
    (by omega)
  have hrv := calcEntries_visited ino dev kids rc ign
    { st with visited := (ino, dev) :: st.visited } 0 0
  rw [hbody]
  have hr1b : (calcEntries ino dev kids rc ign
      { st with visited := (ino, dev) :: st.visited } 0 0).1 =
      listSum ign kids := by
    rw [hr1]
    omega
  refine ⟨?_, ?_, ?_, ?_⟩
  · show Except.ok (calcEntries ino dev kids rc ign
      { st with visited := (ino, dev) :: st.visited } 0 0).1 = _
    rw [hr1b]
  · show ((calcEntries ino dev kids rc ign
      { st with visited := (ino, dev) :: st.visited } 0 0).2.2.visited).erase
        (ino, dev) = st.visited
    rw [hrv]
    exact List.erase_cons_head _ _
  · show cacheGet (cacheInsert _ (get_cache_key ino dev) _)
      (get_cache_key ino dev) = _
    rw [cacheGet_insert_self, hr1b]
  · intro q hq
    have hqh : q ≠ (ino, dev) := by
      intro hh
      exact hq (hh ▸ List.mem_cons_self _ _)
    have hqk : q ∉ listIdents kids := by
      intro hh
      exact hq (List.mem_cons_of_mem _ hh)
    have hqh2 : q ≠ get_cache_key ino dev := hqh
    show cacheGet (cacheInsert _ (get_cache_key ino dev) _) q = _
    rw [cacheGet_insert_ne _ _ _ _ hqh2, hr3 q hqk]

theorem calcDirSize_dirBody (size ino dev : Nat) (rdOk : Bool)
    (kids : List FsEntry) (rc ign : Bool) (st : TravState) :
    calcDirSize true size ino dev rdOk kids rc ign st =
      dirBody ino dev rdOk rc ign kids st := rfl

/-- C1: for every cycle-free directory tree reachable without errors
(all listings succeed, no metadata or iterator failures, the directory
identities below the root together with the root's own identity pairwise
distinct, none already on the active path or in the cache, and the file
total representable), `calculate_directory_size` returns exactly the sum
of the byte lengths of all reachable non-directory entries (symlinked
files excluded when the ignore-symlinks flag is set), and the cache
afterwards holds the entry for the root's identity with that magnitude
and `unit = Bytes`.  In particular, for a directory `R` with files of
100 and 200 bytes and a subdirectory with a 50-byte file, from an empty
cache it returns 350, and the final cache holds exactly one entry for
`R`'s identity, with magnitude 350 and unit `Bytes` (plus the
subdirectory's own entry). -/
theorem spec_C1 :
    (∀ (size ino dev : Nat) (kids : List FsEntry) (rc ign : Bool)
        (st : TravState),
      listOk kids = true →
      ((ino, dev) :: listIdents kids).Nodup →
      (∀ p ∈ (ino, dev) :: listIdents kids, p ∉ st.visited) →
      (∀ p ∈ (ino, dev) :: listIdents kids, cacheGet st.cache p = none) →
      listSum ign kids ≤ U64MAX →
      (calcDirSize true size ino dev true kids rc ign st).1 =
          Except.ok (listSum ign kids) ∧
        cacheGet (calcDirSize true size ino dev true kids rc ign
            st).2.cache (get_cache_key ino dev) =
          some ⟨listSum ign kids, ino, dev, SizeUnit.Bytes⟩) ∧
    calculate_directory_size
        ⟨1, 0, true, 5, true,
          [.nonDir 100 false, .nonDir 200 false,
           .subdir false 2 5 true [.nonDir 50 false]]⟩
        false false ⟨[], [], 0⟩ =
      (Except.ok 350,
        ⟨[((2, 5), ⟨50, 2, 5, .Bytes⟩), ((1, 5), ⟨350, 1, 5, .Bytes⟩)],
         [], 0⟩) := by
  constructor
  · intro size ino dev kids rc ign st hok hnd hvis hcache hsum
    obtain ⟨hb1, _, hb3, _⟩ := dirBody_additive ino dev rc ign kids st hok
      hnd hvis hcache hsum
    rw [calcDirSize_dirBody]
    exact ⟨hb1, hb3⟩
  · rfl

theorem spec_C1_witness :
    (calcDirSize true 0 1 5 true
        [.nonDir 100 false, .nonDir 200 false,
         .subdir false 2 5 true [.nonDir 50 false]]
        false false ⟨[], [], 0⟩).1 = Except.ok 350 ∧
      cacheGet (calcDirSize true 0 1 5 true
          [.nonDir 100 false, .nonDir 200 false,
           .subdir false 2 5 true [.nonDir 50 false]]
          false false ⟨[], [], 0⟩).2.cache (get_cache_key 1 5) =
        some ⟨350, 1, 5, SizeUnit.Bytes⟩ :=
  spec_C1.1 0 1 5
    [.nonDir 100 false, .nonDir 200 false,
     .subdir false 2 5 true [.nonDir 50 false]]
    false false ⟨[], [], 0⟩ (by decide) (by decide) (by decide) (by decide)
    (by decide)

theorem natToLe_length : ∀ (k v : Nat), (natToLe v k).length = k := by
  intro k
  induction k with
  | zero => intro v; rfl
  | succ k ih =>
      intro v
      simp [natToLe, ih]

theorem leToNat_natToLe : ∀ (k v : Nat), v < 256 ^ k →
    leToNat (natToLe v k) = v := by
  intro k
  induction k with
  | zero =>
      intro v hv
      simp at hv
      simp [hv, natToLe, leToNat]
  | succ k ih =>
      intro v hv
      have hdiv : v / 256 < 256 ^ k := by
        rw [Nat.div_lt_iff_lt_mul (by norm_num)]
        calc v < 256 ^ (k + 1) := hv
          _ = 256 ^ k * 256 := by ring
      simp only [natToLe, leToNat, ih (v / 256) hdiv]
      omega

theorem to_u16_lt (u : SizeUnit) : u.to_u16 < 2 ^ 16 := by
  cases u <;> decide

theorem from_u16_to_u16 (u : SizeUnit) :
    SizeUnit.from_u16 u.to_u16 = some u := by
  cases u <;> rfl

theorem encodeRecord_raw (r : CacheRecord) :
    encodeRecord r =
      rawRecord r.key r.inode r.size r.size_unit.to_u16 r.device_id := rfl

theorem parse_short (stream : List Nat) (acc : List CacheRecord) (c : Nat)
    (h : stream.length < 2) : parseLoop stream acc c = (acc, c) := by
  unfold parseLoop
  simp [h]

theorem parse_keylen_bad (b0 b1 : Nat) (rest : List Nat)
    (acc : List CacheRecord) (c : Nat)
    (h : leToNat [b0, b1] = 0 ∨ leToNat [b0, b1] > 4096) :
    parseLoop (b0 :: b1 :: rest) acc c = (acc, c + 1) := by
  unfold parseLoop
  have hlen : ¬((b0 :: b1 :: rest).length < 2) := by
    simp
  have htake : (b0 :: b1 :: rest).take 2 = [b0, b1] := rfl
  simp [hlen, htake, h]

theorem parse_key_trunc (b0 b1 : Nat) (rest : List Nat)
    (acc : List CacheRecord) (c : Nat)
    (h : ¬(leToNat [b0, b1] = 0 ∨ leToNat [b0, b1] > 4096))
    (hsh : rest.length < leToNat [b0, b1]) :
    parseLoop (b0 :: b1 :: rest) acc c = (acc, c + 1) := by
  unfold parseLoop
  have hlen : ¬((b0 :: b1 :: rest).length < 2) := by
    simp
  have htake : (b0 :: b1 :: rest).take 2 = [b0, b1] := rfl
  have hdrop : (b0 :: b1 :: rest).drop 2 = rest := rfl
  simp [hlen, htake, hdrop, h, hsh]

theorem parse_skip_invalid_key (b0 b1 : Nat) (key rest : List Nat)
    (acc : List CacheRecord) (c : Nat)
    (hkl : leToNat [b0, b1] = key.length)
    (h : ¬(leToNat [b0, b1] = 0 ∨ leToNat [b0, b1] > 4096))
    (hbad : validUtf8 key = false) :
    parseLoop (b0 :: b1 :: (key ++ rest)) acc c =
      parseLoop rest acc (c + 1) := by
  conv_lhs => rw [parseLoop.eq_def]
  have hlen : ¬((b0 :: b1 :: (key ++ rest)).length < 2) := by
    simp
  have htake : (b0 :: b1 :: (key ++ rest)).take 2 = [b0, b1] := rfl
  have hdrop : (b0 :: b1 :: (key ++ rest)).drop 2 = key ++ rest := rfl
  have hnosh : ¬((key ++ rest).length < leToNat [b0, b1]) := by
    rw [hkl, List.length_append]
    omega
  have htk : (key ++ rest).take (leToNat [b0, b1]) = key :=
    List.take_left' hkl.symm
  have hdk : (key ++ rest).drop (leToNat [b0, b1]) = rest :=
    List.drop_left' hkl.symm
  simp [hlen, htake, hdrop, h, hnosh, htk, hdk, hbad]
  have h1 : ¬(key.length + rest.length + 1 + 1 < 2) := by omega
  have h2 : ¬(key.length + rest.length < leToNat [b0, b1]) := by
    rw [hkl]
    omega
  simp [h1, h2]

theorem parse_body_trunc (b0 b1 : Nat) (key rest : List Nat)
    (acc : List CacheRecord) (c : Nat)
    (hkl : leToNat [b0, b1] = key.length)
    (h : ¬(leToNat [b0, b1] = 0 ∨ leToNat [b0, b1] > 4096))
    (hval : validUtf8 key = true)
    (hshort : rest.length < 28) :
    parseLoop (b0 :: b1 :: (key ++ rest)) acc c = (acc, c + 1) := by
  conv_lhs => rw [parseLoop.eq_def]
  have hlen : ¬((b0 :: b1 :: (key ++ rest)).length < 2) := by
    simp
  have htake : (b0 :: b1 :: (key ++ rest)).take 2 = [b0, b1] := rfl
  have hdrop : (b0 :: b1 :: (key ++ rest)).drop 2 = key ++ rest := rfl
  have htk : (key ++ rest).take (leToNat [b0, b1]) = key :=
    List.take_left' hkl.symm
  have hdk : (key ++ rest).drop (leToNat [b0, b1]) = rest :=
    List.drop_left' hkl.symm
  have hnosh : ¬((key ++ rest).length < leToNat [b0, b1]) := by
    rw [hkl, List.length_append]
    omega
  simp [hlen, htake, hdrop, h, hnosh, htk, hdk, hval, List.length_drop]
  split_ifs <;> first
    | rfl
    | (exfalso; omega)

set_option maxHeartbeats 2000000 in
theorem parse_record_step (key : List Nat) (ino size t dev : Nat)
    (rest : List Nat) (acc : List CacheRecord) (c : Nat)
    (hval : validUtf8 key = true)
    (hk1 : 1 ≤ key.length) (hk2 : key.length ≤ 4096)
    (hino : ino < 2 ^ 64) (hsize : size < 2 ^ 64) (ht : t < 2 ^ 16)
    (hdev : dev < 2 ^ 64) :
    parseLoop (rawRecord key ino size t dev ++ rest) acc c =
      parseLoop rest
        (recInsert acc
          ⟨key, size, ino, dev, (SizeUnit.from_u16 t).getD SizeUnit.Bytes⟩)
        c := by
  have e256 : (256 : Nat) ^ 8 = 2 ^ 64 := by norm_num
  have e2562 : (256 : Nat) ^ 2 = 2 ^ 16 := by norm_num
  have hstream : rawRecord key ino size t dev ++ rest =
      natToLe key.length 2 ++ (key ++ (natToLe ino 8 ++ ([0, 0] ++
        (natToLe size 8 ++ (natToLe t 2 ++ (natToLe dev 8 ++ rest)))))) := by
    simp [rawRecord, List.append_assoc]
  rw [hstream]
  conv_lhs => rw [parseLoop.eq_def]
  have hA : (natToLe key.length 2).length = 2 := natToLe_length 2 _
  have hkl : leToNat (natToLe key.length 2) = key.length :=
    leToNat_natToLe 2 _ (by norm_num; omega)
  have htake2 := @List.take_left' _ (natToLe key.length 2)
    (key ++ (natToLe ino 8 ++ ([0, 0] ++ (natToLe size 8 ++
      (natToLe t 2 ++ (natToLe dev 8 ++ rest)))))) 2 hA
  have hdrop2 := @List.drop_left' _ (natToLe key.length 2)
    (key ++ (natToLe ino 8 ++ ([0, 0] ++ (natToLe size 8 ++
      (natToLe t 2 ++ (natToLe dev 8 ++ rest)))))) 2 hA
  have hlen1 : ¬((natToLe key.length 2 ++ (key ++ (natToLe ino 8 ++
      ([0, 0] ++ (natToLe size 8 ++ (natToLe t 2 ++ (natToLe dev 8 ++
        rest))))))).length < 2) := by
    simp [List.length_append, hA]
  have hcond : ¬(key.length = 0 ∨ key.length > 4096) := by
    omega
  have htkey := @List.take_left' _ key
    (natToLe ino 8 ++ ([0, 0] ++ (natToLe size 8 ++ (natToLe t 2 ++
      (natToLe dev 8 ++ rest))))) key.length (rfl : key.length = key.length)
  have hdkey := @List.drop_left' _ key
    (natToLe ino 8 ++ ([0, 0] ++ (natToLe size 8 ++ (natToLe t 2 ++
      (natToLe dev 8 ++ rest))))) key.length (rfl : key.length = key.length)
  have hnosh : ¬((key ++ (natToLe ino 8 ++ ([0, 0] ++ (natToLe size 8 ++
      (natToLe t 2 ++ (natToLe dev 8 ++ rest)))))).length < key.length) := by
    simp [List.length_append]
  have hX2 : natToLe ino 8 ++ ([0, 0] ++ (natToLe size 8 ++ (natToLe t 2 ++
      (natToLe dev 8 ++ rest)))) = (natToLe ino 8 ++ [0, 0]) ++
      (natToLe size 8 ++ (natToLe t 2 ++ (natToLe dev 8 ++ rest))) := by
    simp [List.append_assoc]
  have hX2len : ((natToLe ino 8 ++ [0, 0]) : List Nat).length = 10 := by
    simp [List.length_append, natToLe_length]
  have ht10 := @List.take_left' _ (natToLe ino 8 ++ [0, 0])
    (natToLe size 8 ++ (natToLe t 2 ++ (natToLe dev 8 ++ rest))) 10
    hX2len
  have hd10 := @List.drop_left' _ (natToLe ino 8 ++ [0, 0])
    (natToLe size 8 ++ (natToLe t 2 ++ (natToLe dev 8 ++ rest))) 10
    hX2len
  have htino := @List.take_left' _ (natToLe ino 8) [0, 0] 8
    (natToLe_length 8 ino)
  have hinoval : leToNat (natToLe ino 8) = ino :=
    leToNat_natToLe 8 _ (by rw [e256]; exact hino)
  have hnosh10 : ¬((natToLe ino 8 ++ ([0, 0] ++ (natToLe size 8 ++
      (natToLe t 2 ++ (natToLe dev 8 ++ rest))))).length < 10) := by
    simp [List.length_append, natToLe_length]
    omega
  have htsize := @List.take_left' _ (natToLe size 8)
    (natToLe t 2 ++ (natToLe dev 8 ++ rest)) 8 (natToLe_length 8 size)
  have hdsize := @List.drop_left' _ (natToLe size 8)
    (natToLe t 2 ++ (natToLe dev 8 ++ rest)) 8 (natToLe_length 8 size)
  have hsizeval : leToNat (natToLe size 8) = size :=
    leToNat_natToLe 8 _ (by rw [e256]; exact hsize)
  have hnosh8 : ¬((natToLe size 8 ++ (natToLe t 2 ++ (natToLe dev 8 ++
      rest))).length < 8) := by
    simp [List.length_append, natToLe_length]
  have htt := @List.take_left' _ (natToLe t 2) (natToLe dev 8 ++ rest) 2
    (natToLe_length 2 t)
  have hdt := @List.drop_left' _ (natToLe t 2) (natToLe dev 8 ++ rest) 2
    (natToLe_length 2 t)
  have htval : leToNat (natToLe t 2) = t :=
    leToNat_natToLe 2 _ (by rw [e2562]; exact ht)
  have hnosh2 : ¬((natToLe t 2 ++ (natToLe dev 8 ++ rest)).length < 2) := by
    simp [List.length_append, natToLe_length]
  have htdev := @List.take_left' _ (natToLe dev 8) rest 8
    (natToLe_length 8 dev)
  have hddev := @List.drop_left' _ (natToLe dev 8) rest 8
    (natToLe_length 8 dev)
  have hdevval : leToNat (natToLe dev 8) = dev :=
    leToNat_natToLe 8 _ (by rw [e256]; exact hdev)
  have hnoshd : ¬((natToLe dev 8 ++ rest).length < 8) := by
    simp [List.length_append, natToLe_length]
  rw [if_neg hlen1, htake2, hkl, hdrop2, dif_neg hcond, if_neg hnosh,
    htkey, hdkey, if_pos hval, if_neg hnosh10, hX2]
  rw [ht10, hd10, htino, hinoval, if_neg hnosh8, htsize, hdsize, hsizeval,
    if_neg hnosh2, htt, hdt, htval, if_neg hnoshd, htdev, hddev, hdevval]

theorem recInsert_fresh : ∀ (acc : List CacheRecord) (r : CacheRecord),
    r.key ∉ acc.map CacheRecord.key → recInsert acc r = acc ++ [r] := by
  intro acc r h
  induction acc with
  | nil => rfl
  | cons x rest ih =>
      have hx : x.key ≠ r.key := by
        intro hh
        exact h (by simp [hh.symm])
      have ht : r.key ∉ rest.map CacheRecord.key := by
        intro hh
        exact h (by simp [hh])
      simp [recInsert, hx, ih ht]

theorem encodeRecord_length (r : CacheRecord) :
    (encodeRecord r).length = r.key.length + 30 := by
  simp only [encodeRecord, List.length_append, natToLe_length,
    List.length_cons, List.length_nil]
  omega

theorem save_parse : ∀ (store acc : List CacheRecord) (c : Nat),
    (∀ r ∈ store, goodRecord r = true) →
    (store.map CacheRecord.key).Nodup →
    (∀ r ∈ store, r.key ∉ acc.map CacheRecord.key) →
    parseLoop (save_cache store) acc c = (acc ++ store, c) := by
  intro store
  induction store with
  | nil =>
      intro acc c _ _ _
      rw [show save_cache [] = [] from rfl,
        parse_short [] acc c (by simp)]
      simp
  | cons r rest ih =>
      intro acc c hgood hnd hfresh
      have hr := hgood r (List.mem_cons_self _ _)
      simp only [goodRecord, Bool.and_eq_true, decide_eq_true_eq] at hr
      obtain ⟨⟨⟨⟨⟨hval, hk1⟩, hk2⟩, hino⟩, hsize⟩, hdev⟩ := hr
      have hns : ¬(r.key.length > 65535) := by omega
      have hsave : save_cache (r :: rest) =
          rawRecord r.key r.inode r.size r.size_unit.to_u16 r.device_id ++
            save_cache rest := by
        show (if r.key.length > 65535 then [] else encodeRecord r) ++
          save_cache rest = _
        rw [if_neg hns, encodeRecord_raw]
      rw [hsave, parse_record_step r.key r.inode r.size r.size_unit.to_u16
        r.device_id (save_cache rest) acc c hval hk1 hk2 hino hsize
        (to_u16_lt r.size_unit) hdev]
      have hrec : (⟨r.key, r.size, r.inode, r.device_id,
          (SizeUnit.from_u16 r.size_unit.to_u16).getD SizeUnit.Bytes⟩ :
          CacheRecord) = r := by
        rw [from_u16_to_u16]
        rfl
      rw [hrec, recInsert_fresh acc r (hfresh r (List.mem_cons_self _ _))]
      simp only [List.map_cons, List.nodup_cons] at hnd
      obtain ⟨hndh, hndt⟩ := hnd
      rw [ih (acc ++ [r]) c
        (fun r2 hr2 => hgood r2 (List.mem_cons_of_mem _ hr2)) hndt
        (by
          intro r2 hr2
          simp only [List.map_append, List.mem_append]
          rintro (hh | hh)
          · exact hfresh r2 (List.mem_cons_of_mem _ hr2) hh
          · simp only [List.map_cons, List.map_nil, List.mem_cons,
              List.not_mem_nil] at hh
            rcases hh with hh | hh
            · exact hndh (hh ▸ List.mem_map_of_mem CacheRecord.key hr2)
            · exact hh)]
      simp

/-- C2 (amended): when a record's key bytes are not valid UTF-8,
`load_cache` counts one corruption event but does NOT abort: it
continues the parse loop at the byte position immediately after the key
bytes, leaving the record's remaining fixed-width fields unread, so
every subsequent record is parsed from misaligned offsets. -/
theorem spec_C2 (b0 b1 : Nat) (key rest : List Nat)
    (acc : List CacheRecord) (c : Nat)
    (hkl : leToNat [b0, b1] = key.length)
    (hok : ¬(leToNat [b0, b1] = 0 ∨ leToNat [b0, b1] > 4096))
    (hbad : validUtf8 key = false) :
    parseLoop (b0 :: b1 :: (key ++ rest)) acc c =
      parseLoop rest acc (c + 1) :=
  parse_skip_invalid_key b0 b1 key rest acc c hkl hok hbad

theorem spec_C2_witness :
    parseLoop (1 :: 0 :: ([255] ++ [])) [] 0 = parseLoop [] [] (0 + 1) :=
  spec_C2 1 0 [255] [] [] 0 (by decide) (by decide) (by decide)

theorem spec_C2_cex :
    load_cache ([1, 0, 255] ++
        encodeRecord ⟨[97], 7, 3, 4, SizeUnit.Bytes⟩) =
      ([⟨[97], 7, 3, 4, SizeUnit.Bytes⟩], 1) ∧
    ([(⟨[97], 7, 3, 4, SizeUnit.Bytes⟩ : CacheRecord)] : List CacheRecord)
      ≠ [] := by
  constructor
  · have h0 : load_cache ([1, 0, 255] ++
        encodeRecord ⟨[97], 7, 3, 4, SizeUnit.Bytes⟩) =
        parseLoop (1 :: 0 :: ([255] ++
          encodeRecord ⟨[97], 7, 3, 4, SizeUnit.Bytes⟩)) [] 0 := rfl
    rw [h0, parse_skip_invalid_key 1 0 [255]
      (encodeRecord ⟨[97], 7, 3, 4, SizeUnit.Bytes⟩) [] 0 (by decide)
      (by decide) (by decide)]
    have h1 : encodeRecord (⟨[97], 7, 3, 4, SizeUnit.Bytes⟩ : CacheRecord) =
        rawRecord [97] 3 7 1 4 ++ [] := by
      rfl
    rw [h1, parse_record_step [97] 3 7 1 4 [] [] 1 (by decide) (by decide)
      (by decide) (by decide) (by decide) (by decide) (by decide)]
    rw [parse_short [] _ 1 (by decide)]
    rfl
  · simp

/-- C4 (amended): a cache store whose keys are valid UTF-8 of byte length
1..4096 (as every key this program produces is), pairwise distinct, with
`u64` fields, and whose serialized file does not exceed the 100 MiB load
ceiling, round-trips exactly: loading the saved bytes reproduces the
store with corruption count 0, and saving the reloaded store produces
the identical byte stream. -/
theorem spec_C4 (store : List CacheRecord)
    (hgood : ∀ r ∈ store, goodRecord r = true)
    (hnd : (store.map CacheRecord.key).Nodup)
    (hceil : (save_cache store).length ≤ 100 * 1024 * 1024) :
    load_cache (save_cache store) = (store, 0) ∧
      save_cache (load_cache (save_cache store)).1 = save_cache store := by
  have hmain : parseLoop (save_cache store) [] 0 = (store, 0) := by
    have h := save_parse store [] 0 hgood hnd (by simp)
    simpa using h
  have hload : load_cache (save_cache store) = (store, 0) := by
    cases store with
    | nil => rfl
    | cons r rest =>
        have hr := hgood r (List.mem_cons_self _ _)
        simp only [goodRecord, Bool.and_eq_true, decide_eq_true_eq] at hr
        have hns : ¬(r.key.length > 65535) := by omega
        have hlen : (save_cache (r :: rest)).length =
            (encodeRecord r).length + (save_cache rest).length := by
          show ((if r.key.length > 65535 then [] else encodeRecord r) ++
            save_cache rest).length = _
          rw [if_neg hns, List.length_append]
        have hne : ¬((save_cache (r :: rest)).length = 0) := by
          rw [hlen, encodeRecord_length]
          omega
        have hle : ¬((save_cache (r :: rest)).length >
            100 * 1024 * 1024) := by
          omega
        unfold load_cache
        rw [if_neg hne, if_neg hle]
        exact hmain
  exact ⟨hload, by rw [hload]⟩

theorem spec_C4_witness :
    load_cache (save_cache [⟨[97], 350, 1, 5, SizeUnit.Bytes⟩]) =
        ([⟨[97], 350, 1, 5, SizeUnit.Bytes⟩], 0) ∧
      save_cache
          (load_cache (save_cache [⟨[97], 350, 1, 5, SizeUnit.Bytes⟩])).1 =
        save_cache [⟨[97], 350, 1, 5, SizeUnit.Bytes⟩] :=
  spec_C4 [⟨[97], 350, 1, 5, SizeUnit.Bytes⟩] (by decide) (by decide)
    (by decide)

theorem spec_C4_cex :
    load_cache (save_cache [⟨[], 0, 0, 0, SizeUnit.Bytes⟩]) = ([], 1) ∧
      ([(⟨[], 0, 0, 0, SizeUnit.Bytes⟩ : CacheRecord)] : List CacheRecord)
        ≠ [] := by
  constructor
  · have h0 : load_cache (save_cache [⟨[], 0, 0, 0, SizeUnit.Bytes⟩]) =
        parseLoop (0 :: 0 ::
          [0, 0, 0, 0, 0, 0, 0, 0, 0, 0,
           0, 0, 0, 0, 0, 0, 0, 0, 1, 0,
           0, 0, 0, 0, 0, 0, 0, 0]) [] 0 := rfl
    rw [h0, parse_keylen_bad 0 0 _ [] 0 (Or.inl rfl)]
  · simp

/-- C6 (amended): `load_cache` treats a declared key length of 0 or above
4096, a truncated key read, and a truncated read of any fixed-width
field after the key as corruption events: it counts one corruption and
aborts parsing without resynchronizing, returning the records completed
before that point; a file whose first record declares key length 9000
yields an empty store with corruption count 1.  However, a truncated
read WITHIN the 2-byte key-length field itself (0 or 1 bytes remaining)
is treated as a clean end of file: the loop stops without counting any
corruption.  The loader is a total function, so it never panics or
hangs. -/
theorem spec_C6 :
    (∀ (b0 b1 : Nat) (rest : List Nat) (acc : List CacheRecord) (c : Nat),
      leToNat [b0, b1] = 0 ∨ leToNat [b0, b1] > 4096 →
      parseLoop (b0 :: b1 :: rest) acc c = (acc, c + 1)) ∧
    (∀ (b0 b1 : Nat) (rest : List Nat) (acc : List CacheRecord) (c : Nat),
      ¬(leToNat [b0, b1] = 0 ∨ leToNat [b0, b1] > 4096) →
      rest.length < leToNat [b0, b1] →
      parseLoop (b0 :: b1 :: rest) acc c = (acc, c + 1)) ∧
    (∀ (b0 b1 : Nat) (key rest : List Nat) (acc : List CacheRecord)
        (c : Nat),
      leToNat [b0, b1] = key.length →
      ¬(leToNat [b0, b1] = 0 ∨ leToNat [b0, b1] > 4096) →
      validUtf8 key = true →
      rest.length < 28 →
      parseLoop (b0 :: b1 :: (key ++ rest)) acc c = (acc, c + 1)) ∧
    (∀ rest : List Nat, rest.length + 2 ≤ 100 * 1024 * 1024 →
      load_cache (40 :: 35 :: rest) = ([], 1)) ∧
    (∀ (stream : List Nat) (acc : List CacheRecord) (c : Nat),
      stream.length < 2 → parseLoop stream acc c = (acc, c)) := by
  refine ⟨parse_keylen_bad, parse_key_trunc, parse_body_trunc, ?_,
    parse_short⟩
  intro rest hle
  have hne : ¬((40 :: 35 :: rest).length = 0) := by
    simp
  have hlt : ¬((40 :: 35 :: rest).length > 100 * 1024 * 1024) := by
    simp only [List.length_cons]
    omega
  unfold load_cache
  rw [if_neg hne, if_neg hlt,
    parse_keylen_bad 40 35 rest [] 0 (Or.inr (by decide))]

theorem spec_C6_witness :
    parseLoop [0, 0] [] 0 = ([], 0 + 1) ∧
    parseLoop [2, 0, 9] [] 0 = ([], 0 + 1) ∧
    parseLoop (1 :: 0 :: ([97] ++ [])) [] 0 = ([], 0 + 1) ∧
    load_cache [40, 35] = ([], 1) ∧
    parseLoop [5] [] 0 = ([], 0) :=
  ⟨spec_C6.1 0 0 [] [] 0 (Or.inl (by decide)),
   spec_C6.2.1 2 0 [9] [] 0 (by decide) (by decide),
   spec_C6.2.2.1 1 0 [97] [] [] 0 (by decide) (by decide) (by decide)
     (by decide),
   spec_C6.2.2.2.1 [] (by decide),
   spec_C6.2.2.2.2 [5] [] 0 (by decide)⟩

theorem spec_C6_cex :
    load_cache [5] = ([], 0) ∧ ¬(1 ≤ (load_cache [5]).2) := by
  have h0 : load_cache [5] = parseLoop [5] [] 0 := rfl
  rw [h0, parse_short [5] [] 0 (by decide)]
  simp

/-- C10: a well-formed record whose two-byte unit tag is not one of the
nine defined `SizeUnit` encodings is NOT treated as corrupt: `load_cache`
keeps the record, substitutes `unit = Bytes` (scale factor 1) for the
unknown tag via `unwrap_or`, leaves the corruption counter untouched,
and continues parsing the following records. -/
theorem spec_C10 (key : List Nat) (ino size t dev : Nat)
    (rest : List Nat) (acc : List CacheRecord) (c : Nat)
    (hval : validUtf8 key = true)
    (hk1 : 1 ≤ key.length) (hk2 : key.length ≤ 4096)
    (hino : ino < 2 ^ 64) (hsize : size < 2 ^ 64) (ht : t < 2 ^ 16)
    (hdev : dev < 2 ^ 64)
    (hnone : SizeUnit.from_u16 t = none) :
    parseLoop (rawRecord key ino size t dev ++ rest) acc c =
      parseLoop rest
        (recInsert acc ⟨key, size, ino, dev, SizeUnit.Bytes⟩) c := by
  rw [parse_record_step key ino size t dev rest acc c hval hk1 hk2 hino
    hsize ht hdev, hnone]
  rfl

theorem spec_C10_witness :
    parseLoop (rawRecord [97] 1 2 512 3 ++ []) [] 0 =
      parseLoop [] [⟨[97], 2, 1, 3, SizeUnit.Bytes⟩] 0 :=
  spec_C10 [97] 1 2 512 3 [] [] 0 (by decide) (by decide) (by decide)
    (by decide) (by decide) (by decide) (by decide) (by decide)
